import Mathlib

/-!
Verification of the parallel listing-fetch engines of ld-util:
the time-chunked audit-log engine
(src/scripts/get-all-audit-log-entries/get-all-audit-log-entries.ts) and the
offset-chunked approval-request engine
(src/scripts/get-all-approval-requests/get-all-approval-requests.ts).

The embedding is shallow: each numbered line reference below points at the
TypeScript source the definition translates. Machine numbers are Nat or Int
(the quantities involved are small integers, for which JavaScript number
arithmetic is exact). The remote listing endpoint is external to the
repository and is modelled where needed; every such model is marked in its
doc comment.
-/

namespace LdUtil

/-- A fetched record. The source treats records as opaque JSON objects;
the dedup identifier is the `_id` field (modelled as `id`, absent allowed),
`ts` models the `date` timestamp in epoch milliseconds used by the
time-range endpoint, and `payload` stands for all remaining fields. -/
structure Entry where
  id : Option String
  ts : Nat
  payload : Nat
  deriving DecidableEq, Repr

/-- Math.ceil(a / b) on naturals (b intended positive). -/
def ceilDiv (a b : Nat) : Nat := (a + b - 1) / b

/-- Result of the coordinator merge loop processing a queue of entries:
the entries yielded to the caller, the totalDuplicates counter, and the
final seenIds set (kept as a list that the loop only ever extends with
unseen identifiers, so its length is the JS Set size). -/
structure MergeOut where
  yielded : List Entry
  dups : Nat
  seen : List (Option String)
  deriving DecidableEq, Repr

/-- The dedup merge loop body (get-all-audit-log-entries.ts lines 261-272,
get-all-approval-requests.ts lines 438-449): pop entries from the queue
front; an unseen `_id` is added to seenIds and the entry is yielded; a seen
`_id` increments totalDuplicates and the entry is dropped. -/
def dedupLoop : List Entry → List (Option String) → MergeOut
  | [], seen => ⟨[], 0, seen⟩
  | e :: rest, seen =>
    if e.id ∈ seen then
      let m := dedupLoop rest seen
      ⟨m.yielded, m.dups + 1, m.seen⟩
    else
      let m := dedupLoop rest (e.id :: seen)
      ⟨e :: m.yielded, m.dups, m.seen⟩

/-- Processing a whole queue starting from an empty seen set. -/
def mergeQueue (q : List Entry) : MergeOut := dedupLoop q []

/-- Time partitioner of getAllAuditLogEntriesParallel (lines 156-165):
chunkSize = ceil((before - after) / parallelChunks) and chunk i is
(after + i*chunkSize, min(after + (i+1)*chunkSize, before)). -/
def timeChunks (after before P : Nat) : List (Nat × Nat) :=
  let chunkSize := ceilDiv (before - after) P
  (List.range P).map fun i =>
    (after + i * chunkSize, min (after + (i + 1) * chunkSize) before)

/-- Offset-chunk loop of getAllApprovalRequestsParallel (lines 279-287):
chunk i covers offsets [S + i*cs, min(S + i*cs + cs, S + R)); the loop
breaks at the first chunk whose start reaches S + R. The fuel argument is
the loop bound effectiveParallelChunks. -/
def offsetChunksAux (S R cs : Nat) : Nat → Nat → List (Nat × Nat)
  | _, 0 => []
  | i, fuel + 1 =>
    if S + R ≤ S + i * cs then []
    else
      (S + i * cs, min (S + i * cs + cs) (S + R)) ::
        offsetChunksAux S R cs (i + 1) fuel

/-- Offset partitioner (lines 269-287): effectiveParallelChunks =
min(parallelChunks, ceil(recordsToFetch / 200)) and chunkSize =
ceil(recordsToFetch / effectiveParallelChunks). -/
def offsetChunks (S R P : Nat) : List (Nat × Nat) :=
  let effective := min P (ceilDiv R 200)
  offsetChunksAux S R (ceilDiv R effective) 0 effective

/-- Modelled endpoint semantics for one offset/limit page against a static
ordered backing dataset: the records at indices [off, off + lim). -/
def pageAt (ds : List Entry) (off lim : Nat) : List Entry :=
  (ds.drop off).take lim

/-- The approval-request chunk worker page loop (lines 326-413) run against
a static backing dataset: while fewer than `remaining` entries have been
pushed, request a page of size min(remaining, 200) at the current offset,
push every returned record, advance the offset by the count returned, and
break if a page comes back empty. -/
def offsetWorkerRun (ds : List Entry) (off remaining : Nat) : List Entry :=
  if hrem : remaining = 0 then []
  else
    if hpage : (pageAt ds off (min remaining 200)).length = 0 then []
    else
      pageAt ds off (min remaining 200) ++
        offsetWorkerRun ds (off + (pageAt ds off (min remaining 200)).length)
          (remaining - (pageAt ds off (min remaining 200)).length)
termination_by remaining
decreasing_by
  have hle : (pageAt ds off (min remaining 200)).length ≤ min remaining 200 := by
    simpa [pageAt] using List.length_take_le (min remaining 200) (ds.drop off)
  have hmin : min remaining 200 ≤ remaining := Nat.min_le_left _ _
  omega

/-- The offset/limit requests the same worker loop issues (same recursion
as offsetWorkerRun, projecting the request parameters of each iteration
instead of the pushed records). -/
def offsetWorkerRequests (ds : List Entry) (off remaining : Nat) :
    List (Nat × Nat) :=
  if hrem : remaining = 0 then []
  else
    if hpage : (pageAt ds off (min remaining 200)).length = 0 then
      [(off, min remaining 200)]
    else
      (off, min remaining 200) ::
        offsetWorkerRequests ds (off + (pageAt ds off (min remaining 200)).length)
          (remaining - (pageAt ds off (min remaining 200)).length)
termination_by remaining
decreasing_by
  have hle : (pageAt ds off (min remaining 200)).length ≤ min remaining 200 := by
    simpa [pageAt] using List.length_take_le (min remaining 200) (ds.drop off)
  have hmin : min remaining 200 ≤ remaining := Nat.min_le_left _ _
  omega

/-- Modelled endpoint semantics for the audit-log listing: the records of
the static dataset whose timestamp lies in the requested window. The
window boundaries are taken inclusive on both sides; adjacent chunks share
one boundary instant, which is exactly the duplication the Set-based dedup
of the coordinator guards against. -/
def fetchTimeRange (ds : List Entry) (after before : Nat) : List Entry :=
  ds.filter fun r => decide (after ≤ r.ts) && decide (r.ts ≤ before)

/-- All records pushed by the audit-log parallel workers, in chunk order
(each worker drives the sequential fetcher over its own time chunk,
lines 211-236). -/
def timeWorkerJoin (ds : List Entry) (after before P : Nat) : List Entry :=
  ((timeChunks after before P).map fun c => fetchTimeRange ds c.1 c.2).flatten

/-- All records pushed by the approval-request parallel workers, in chunk
order, for the default run (startingOffset 0, no max) over a static
dataset: recordsToFetch equals the dataset size. -/
def offsetWorkerJoin (ds : List Entry) (P : Nat) : List Entry :=
  ((offsetChunks 0 ds.length P).map fun c =>
    offsetWorkerRun ds c.1 (c.2 - c.1)).flatten

/-- Two half-open ranges are disjoint when no point lies in both.
Interpreting each produced range as half-open at its upper bound is the
1-unit edge slop the spec tolerates: as closed intervals, adjacent chunks
share exactly their boundary point. -/
def rangesDisjoint (c d : Nat × Nat) : Prop :=
  ∀ x : Nat, ¬((c.1 ≤ x ∧ x < c.2) ∧ (d.1 ≤ x ∧ x < d.2))

/-! ## HTTP responses and the sequential retry loop -/

/-- One HTTP response as the fetch loop observes it: a 2xx page body with
a possible next link, a non-2xx response carrying its status code and the
optional X-RateLimit-Reset header (epoch seconds), or a low-level network
failure (the TypeError thrown by fetch). -/
inductive Resp where
  | ok (items : List Entry) (hasNext : Bool)
  | status (code : Nat) (reset : Option Nat)
  | netfail
  deriving DecidableEq, Repr

/-- What the loop body does with one response. -/
inductive FetchStep where
  | yieldPage (items : List Entry) (hasNext : Bool)
  | retryAfter (waitMs : Int)
  | fatal (code : Nat)
  deriving DecidableEq, Repr

/-- Response handling of the sequential fetchers
(get-all-audit-log-entries.ts lines 73-113, identical block in
get-all-approval-requests.ts lines 88-160), in source order: a 429 with a
reset header waits min(resetSeconds*1000 - now, 1000); any other non-ok
response with status at least 500 or equal to 429 waits a fixed 1000ms; any
remaining non-ok response raises a fatal error; a fetch-level network error
waits a fixed 1000ms. Every retryAfter retries the same request. -/
def classify (now : Int) : Resp → FetchStep
  | .ok items hasNext => .yieldPage items hasNext
  | .status code reset =>
      if code = 429 ∧ reset.isSome then
        .retryAfter (min (((reset.getD 0 : Nat) : Int) * 1000 - now) 1000)
      else if 500 ≤ code ∨ code = 429 then .retryAfter 1000
      else .fatal code
  | .netfail => .retryAfter 1000

/-- Outcome of driving the sequential fetch loop against a chronological
script of responses: the items yielded and the waits slept (in order), a
fatal failure with the items yielded before it, or the script running out
while the loop would still be going. -/
inductive RunResult where
  | success (items : List Entry) (waits : List Int)
  | failure (code : Nat) (items : List Entry) (waits : List Int)
  | outOfScript
  deriving DecidableEq, Repr

/-- The sequential fetch loop (get-all-audit-log-entries.ts lines 63-115)
driven by a response script. Each iteration consumes one response; retries
sleep the computed wait (a negative wait sleeps zero time, as setTimeout
does) and re-request the same page; a page with a next link continues with
the next page and a page without one ends the generator. -/
def runSeq : List Resp → Int → RunResult
  | [], _ => .outOfScript
  | r :: rest, now =>
    match classify now r with
    | .fatal c => .failure c [] []
    | .retryAfter w =>
      match runSeq rest (now + max w 0) with
      | .success its ws => .success its (w :: ws)
      | .failure c its ws => .failure c its (w :: ws)
      | .outOfScript => .outOfScript
    | .yieldPage items true =>
      match runSeq rest now with
      | .success its ws => .success (items ++ its) ws
      | .failure c its ws => .failure c (items ++ its) ws
      | .outOfScript => .outOfScript
    | .yieldPage items false => .success items []

/-! ## The approval-request parallel chunk worker -/

/-- How a chunk worker of getAllApprovalRequestsParallel fails: a non-2xx
response thrown at line 379, or a network-level fetch failure caught by the
worker catch at line 426. -/
inductive FailKind where
  | httpFail (code : Nat)
  | netFail
  deriving DecidableEq, Repr

/-- Outcome of one approval-request chunk worker: the records it pushed to
the shared queue, plus whether it finished, recorded an error, or the
response script ran out first. -/
inductive WorkerOut where
  | done (pushed : List Entry)
  | errored (e : FailKind) (pushed : List Entry)
  | outOfScript (pushed : List Entry)
  deriving DecidableEq, Repr

/-- The approval-request chunk worker loop (lines 326-413) driven by a
response script, one response per HTTP call. Unlike the sequential
fetchers, the worker has no retry branch: any non-ok response is thrown
(line 379) and any network failure is caught by the worker catch, so both
end the chunk with a recorded error and nothing more pushed. -/
def approvalWorkerRunScript :
    List Resp → Nat → Nat → WorkerOut
  | _, _, 0 => .done []
  | [], _, _ + 1 => .outOfScript []
  | .ok items _ :: rest, off, remaining + 1 =>
    if items.length = 0 then .done items
    else
      match approvalWorkerRunScript rest (off + items.length)
          (remaining + 1 - items.length) with
      | .done p => .done (items ++ p)
      | .errored e p => .errored e (items ++ p)
      | .outOfScript p => .outOfScript (items ++ p)
  | .status c _ :: _, _, _ + 1 => .errored (.httpFail c) []
  | .netfail :: _, _, _ + 1 => .errored .netFail []

/-! ## The coordinator merge loop as a small-step system -/

/-- Coordinator state during the merge loop of both parallel engines: the
shared queue, the activeChunks countdown, the hasError slot, the seenIds
set, and the yielded/duplicate accounting. -/
structure CoState where
  queue : List Entry
  active : Nat
  err : Option FailKind
  seen : List (Option String)
  yielded : List Entry
  dups : Nat
  deriving DecidableEq, Repr

/-- An event performed by a worker task while the coordinator is
suspended: pushing one record to the shared queue, finishing its chunk, or
recording a fatal error and finishing (the catch block sets hasError and
the finally block decrements activeChunks). -/
inductive WEvent where
  | push (r : Entry)
  | finishOk
  | finishErr (e : FailKind)
  deriving DecidableEq, Repr

def applyEvent (s : CoState) : WEvent → CoState
  | .push r => { s with queue := s.queue ++ [r] }
  | .finishOk => { s with active := s.active - 1 }
  | .finishErr e => { s with err := some e, active := s.active - 1 }

/-- Draining the queue inside one merge-loop iteration (the inner while of
lines 261-272 / 438-449), via the dedup loop. -/
def coordDrain (s : CoState) : CoState :=
  let m := dedupLoop s.queue s.seen
  { queue := [], active := s.active, err := s.err,
    seen := m.seen, yielded := s.yielded ++ m.yielded, dups := s.dups + m.dups }

/-- How one engine call ends: the Complete progress event (carrying
uniqueEntries = seenIds.size and duplicatesRemoved = totalDuplicates) or an
error raised to the caller. -/
inductive Outcome where
  | completed (uniqueEntries duplicatesRemoved : Nat)
  | errored (e : FailKind)
  deriving DecidableEq, Repr

/-- The head of one merge-loop iteration: the loop condition check
(activeChunks = 0 and empty queue ends the loop with the Complete event)
followed by the hasError check (a recorded error is thrown as-is);
otherwise the iteration continues as `k`. -/
def coordCheck (s : CoState) (k : Option Outcome) : Option Outcome :=
  if s.active = 0 ∧ s.queue = [] then
    some (.completed s.seen.length s.dups)
  else
    match s.err with
    | some e => some (.errored e)
    | none => k

/-- The merge loop of both parallel engines (lines 258-288 / 435-465) at
the granularity of its iterations: while activeChunks > 0 or the queue is
non-empty, first raise any recorded error, then drain and dedup the queue,
then suspend (the 10ms idle sleep), during which one batch of worker
events lands. A run is None when the event script ends while workers are
still marked active (the loop would keep idling). -/
def coordRun : CoState → List (List WEvent) → Option Outcome
  | s, [] => coordCheck s none
  | s, evs :: rest =>
    coordCheck s (coordRun (evs.foldl applyEvent (coordDrain s)) rest)

/-! ## The offset engine around its partitioner -/

/-- Outcome of one getAllApprovalRequestsParallel call over a static
dataset (merge processed in chunk order): the partitioned ranges, the
yielded records, the Complete event counters, and every offset/limit page
request the workers issue. -/
structure EngineOutcome where
  ranges : List (Nat × Nat)
  yielded : List Entry
  uniqueEntries : Nat
  duplicatesRemoved : Nat
  requests : List (Nat × Nat)
  deriving DecidableEq, Repr

/-- getAllApprovalRequestsParallel after its count probe (lines 246-287
plus workers and merge): recordsToFetch = min(max, totalCount -
startingOffset) when max is set, totalCount - startingOffset otherwise; a
non-positive recordsToFetch emits an immediate Complete event with
uniqueEntries 0 and duplicatesRemoved 0, building no chunks and issuing no
page requests. -/
def offsetEngineOutcome (ds : List Entry) (totalCount startingOffset : Nat)
    (maxOpt : Option Nat) (P : Nat) : EngineOutcome :=
  let recordsToFetch : Int :=
    match maxOpt with
    | some m => min (m : Int) ((totalCount : Int) - (startingOffset : Int))
    | none => (totalCount : Int) - (startingOffset : Int)
  if recordsToFetch ≤ 0 then ⟨[], [], 0, 0, []⟩
  else
    let R := recordsToFetch.toNat
    let chunks := offsetChunks startingOffset R P
    let m := mergeQueue ((chunks.map fun c =>
      offsetWorkerRun ds c.1 (c.2 - c.1)).flatten)
    ⟨chunks, m.yielded, m.seen.length, m.dups,
      (chunks.map fun c => offsetWorkerRequests ds c.1 (c.2 - c.1)).flatten⟩

/-! ## The sequential approval-request fetcher -/

/-- One page response of the approval-request listing endpoint: the items
plus the optional totalCount field. -/
structure Page where
  items : List Entry
  totalCount : Option Nat
  deriving DecidableEq, Repr

/-- Result of the sequential approval-request generator: the records it
yielded and the offset/limit requests it made, in order. -/
structure SeqOut where
  yielded : List Entry
  requests : List (Nat × Nat)
  deriving DecidableEq, Repr

/-- The getAllApprovalRequests page loop (lines 78-163) against a server
oracle mapping offset and limit to a page. Per iteration: yield the items
(truncated at max, returning as soon as the max-th record is yielded,
lines 116-124); then follow offset pagination (lines 126-153): continue
only when the page was non-empty and totalCount is present and non-zero
(JS truthiness) and newOffset < totalCount and max is unset or not yet
reached; the next limit is min(max - yielded, 200) when max is set, else
the current limit. The fuel bounds the iteration count of the loop. -/
def approvalSeqRunAux (server : Nat → Nat → Page) (maxOpt : Option Nat) :
    Nat → Nat → Nat → Nat → SeqOut
  | 0, _, _, _ => ⟨[], []⟩
  | fuel + 1, off, lim, yc =>
    let page := server off lim
    let k : Nat :=
      match maxOpt with
      | some m => min page.items.length (m - yc)
      | none => page.items.length
    let retEarly : Bool :=
      match maxOpt with
      | some m => decide (0 < k ∧ m ≤ yc + k)
      | none => false
    if retEarly then ⟨page.items.take k, [(off, lim)]⟩
    else
      let cont : Option (Nat × Nat) :=
        if 0 < page.items.length then
          match page.totalCount with
          | none => none
          | some 0 => none
          | some tc =>
            let newOffset := off + page.items.length
            let needsMore : Bool :=
              match maxOpt with
              | none => true
              | some m => decide (yc + k < m)
            if newOffset < tc ∧ needsMore then
              some (newOffset,
                match maxOpt with
                | none => lim
                | some m => min (m - (yc + k)) 200)
            else none
        else none
      match cont with
      | none => ⟨page.items.take k, [(off, lim)]⟩
      | some (off', lim') =>
        let rest := approvalSeqRunAux server maxOpt fuel off' lim' (yc + k)
        ⟨page.items.take k ++ rest.yielded, (off, lim) :: rest.requests⟩

/-- Entry point of getAllApprovalRequests (lines 32-42): initial limit =
min(max, 200) when max is set, else 20; initial offset defaults to 0. -/
def approvalSeqRun (server : Nat → Nat → Page) (maxOpt offsetOpt : Option Nat)
    (fuel : Nat) : SeqOut :=
  approvalSeqRunAux server maxOpt fuel (offsetOpt.getD 0)
    (match maxOpt with | some m => min m 200 | none => 20) 0

/-! ## Properties of the dedup merge loop -/

theorem dedupLoop_length (q : List Entry) :
    ∀ s, (dedupLoop q s).yielded.length + (dedupLoop q s).dups = q.length := by
  induction q with
  | nil => intro s; simp [dedupLoop]
  | cons e rest ih =>
    intro s
    by_cases h : e.id ∈ s
    · have := ih s
      simp only [dedupLoop, h, if_true]
      simp
      omega
    · have := ih (e.id :: s)
      simp only [dedupLoop, h, if_false]
      simp
      omega

theorem dedupLoop_seen_length (q : List Entry) :
    ∀ s, (dedupLoop q s).seen.length =
      s.length + (dedupLoop q s).yielded.length := by
  induction q with
  | nil => intro s; simp [dedupLoop]
  | cons e rest ih =>
    intro s
    by_cases h : e.id ∈ s
    · have := ih s
      simp only [dedupLoop, h, if_true]
      simpa using this
    · have := ih (e.id :: s)
      simp only [dedupLoop, h, if_false]
      simp at this ⊢
      omega

theorem dedupLoop_mem_seen (q : List Entry) :
    ∀ s x, x ∈ (dedupLoop q s).seen ↔ x ∈ s ∨ x ∈ q.map Entry.id := by
  induction q with
  | nil => intro s x; simp [dedupLoop]
  | cons e rest ih =>
    intro s x
    have hsub : x = e.id → (x ∈ s ↔ e.id ∈ s) := by intro hx; rw [hx]
    by_cases h : e.id ∈ s
    · simp only [dedupLoop, h, if_true]
      rw [ih s x]
      simp
      constructor
      · tauto
      · rintro (hx | hx | hx)
        · tauto
        · exact Or.inl (hx ▸ h)
        · tauto
    · simp only [dedupLoop, h, if_false]
      rw [ih (e.id :: s) x]
      simp
      tauto

theorem dedupLoop_mem_yielded_id (q : List Entry) :
    ∀ s x, x ∈ (dedupLoop q s).yielded.map Entry.id ↔
      x ∈ q.map Entry.id ∧ x ∉ s := by
  induction q with
  | nil => intro s x; simp [dedupLoop]
  | cons e rest ih =>
    intro s x
    by_cases h : e.id ∈ s
    · simp only [dedupLoop, h, if_true]
      rw [ih s x]
      simp
      intro hxs hx
      subst hx
      exact absurd h hxs
    · simp only [dedupLoop, h, if_false]
      simp only [List.map_cons, List.mem_cons]
      rw [ih (e.id :: s) x]
      simp
      constructor
      · rintro (hx | ⟨hx, hx2, hx3⟩)
        · exact ⟨Or.inl hx, hx ▸ h⟩
        · exact ⟨Or.inr hx, hx3⟩
      · rintro ⟨hx | hx, hxs⟩
        · exact Or.inl hx
        · by_cases he : x = e.id
          · exact Or.inl he
          · exact Or.inr ⟨hx, he, hxs⟩

theorem dedupLoop_yielded_nodup (q : List Entry) :
    ∀ s, ((dedupLoop q s).yielded.map Entry.id).Nodup := by
  induction q with
  | nil => intro s; simp [dedupLoop]
  | cons e rest ih =>
    intro s
    by_cases h : e.id ∈ s
    · simp only [dedupLoop, h, if_true]
      exact ih s
    · simp only [dedupLoop, h, if_false, List.map_cons, List.nodup_cons]
      refine ⟨?_, ih (e.id :: s)⟩
      intro hmem
      have := (dedupLoop_mem_yielded_id rest (e.id :: s) e.id).mp hmem
      exact this.2 (List.mem_cons_self _ _)

theorem dedupLoop_seen_nodup (q : List Entry) :
    ∀ s, s.Nodup → (dedupLoop q s).seen.Nodup := by
  induction q with
  | nil => intro s hs; simpa [dedupLoop] using hs
  | cons e rest ih =>
    intro s hs
    by_cases h : e.id ∈ s
    · simp only [dedupLoop, h, if_true]
      exact ih s hs
    · simp only [dedupLoop, h, if_false]
      exact ih (e.id :: s) (by simp [hs, h])

theorem dedupLoop_sublist (q : List Entry) :
    ∀ s, (dedupLoop q s).yielded.Sublist q := by
  induction q with
  | nil => intro s; simp [dedupLoop]
  | cons e rest ih =>
    intro s
    by_cases h : e.id ∈ s
    · simp only [dedupLoop, h, if_true]
      exact (ih s).trans (List.sublist_cons_self e rest)
    · simp only [dedupLoop, h, if_false]
      exact (ih (e.id :: s)).cons₂ e

theorem dedupLoop_filter_key (q : List Entry) (k : Option String) :
    ∀ s, (dedupLoop q s).yielded.filter (fun r => decide (r.id = k)) =
      if k ∈ s then [] else (q.filter (fun r => decide (r.id = k))).take 1 := by
  induction q with
  | nil =>
    intro s
    by_cases hk : k ∈ s <;> simp [dedupLoop, hk]
  | cons e rest ih =>
    intro s
    by_cases h : e.id ∈ s
    · simp only [dedupLoop, h, if_true]
      rw [ih s]
      by_cases hk : k ∈ s
      · simp [hk]
      · have hek : ¬(e.id = k) := fun he => hk (he ▸ h)
        simp [hk, List.filter_cons, hek]
    · simp only [dedupLoop, h, if_false]
      by_cases hek : e.id = k
      · subst hek
        simp only [h, if_false, List.filter_cons, decide_True, if_true]
        rw [ih (e.id :: s)]
        simp
      · rw [List.filter_cons_of_neg (by simp [hek])]
        rw [ih (e.id :: s)]
        have hmem : (k ∈ e.id :: s) ↔ k ∈ s := by
          simp only [List.mem_cons]
          constructor
          · rintro (hke | hke)
            · exact absurd hke.symm hek
            · exact hke
          · exact fun hke => Or.inr hke
        rw [List.filter_cons_of_neg (by simp [hek])]
        by_cases hk : k ∈ s
        · simp [hk, hmem.mpr hk]
        · simp [hk]
          intro hke
          exact absurd hke.symm hek

/-! ## Arithmetic of ceiling division -/

theorem le_mul_ceilDiv (n k : Nat) (hk : 1 ≤ k) : n ≤ k * ceilDiv n k := by
  show n ≤ k * ((n + k - 1) / k)
  have h1 := Nat.div_add_mod (n + k - 1) k
  have h2 : (n + k - 1) % k < k := Nat.mod_lt _ hk
  omega

theorem ceilDiv_pos (n k : Nat) (hn : 1 ≤ n) (hk : 1 ≤ k) : 1 ≤ ceilDiv n k := by
  show 1 ≤ (n + k - 1) / k
  rw [Nat.le_div_iff_mul_le hk]
  omega

theorem lt_succ_div_mul (n m : Nat) (hm : 0 < m) : n < (n / m + 1) * m := by
  have h1 := Nat.div_add_mod n m
  have h2 : n % m < m := Nat.mod_lt _ hm
  have h3 : (n / m + 1) * m = m * (n / m) + m := by ring
  omega

/-! ## Properties of the offset partitioner -/

theorem offsetChunksAux_mem {S R cs : Nat} :
    ∀ fuel i c, c ∈ offsetChunksAux S R cs i fuel →
      ∃ j, i ≤ j ∧ S + j * cs < S + R ∧
        c = (S + j * cs, min (S + j * cs + cs) (S + R)) := by
  intro fuel
  induction fuel with
  | zero => intro i c hc; simp [offsetChunksAux] at hc
  | succ fuel ih =>
    intro i c hc
    by_cases h : S + R ≤ S + i * cs
    · simp [offsetChunksAux, h] at hc
    · simp only [offsetChunksAux, h, if_false, List.mem_cons] at hc
      rcases hc with hc | hc
      · exact ⟨i, Nat.le_refl i, by omega, hc⟩
      · obtain ⟨j, hj, hjR, hcj⟩ := ih (i + 1) c hc
        exact ⟨j, by omega, hjR, hcj⟩

theorem offsetChunksAux_cover {S R cs : Nat} (hcs : 1 ≤ cs) :
    ∀ fuel i x, R ≤ (i + fuel) * cs →
      ((∃ c ∈ offsetChunksAux S R cs i fuel, c.1 ≤ x ∧ x < c.2) ↔
        S + i * cs ≤ x ∧ x < S + R) := by
  intro fuel
  induction fuel with
  | zero =>
    intro i x hR
    simp only [Nat.add_zero] at hR
    simp only [offsetChunksAux]
    constructor
    · rintro ⟨c, hc, _⟩
      exact absurd hc (List.not_mem_nil c)
    · rintro ⟨h1, h2⟩
      omega
  | succ fuel ih =>
    intro i x hR
    have hR2 : R ≤ (i + 1 + fuel) * cs := by
      have : (i + 1 + fuel) * cs = (i + (fuel + 1)) * cs := by ring
      omega
    have hrest := ih (i + 1) x hR2
    have hstep : (i + 1) * cs = i * cs + cs := by ring
    by_cases h : S + R ≤ S + i * cs
    · simp only [offsetChunksAux, h, if_true]
      constructor
      · rintro ⟨c, hc, _⟩
        exact absurd hc (List.not_mem_nil c)
      · rintro ⟨h1, h2⟩
        omega
    · simp only [offsetChunksAux, h, if_false]
      constructor
      · rintro ⟨c, hc, hx1, hx2⟩
        rcases List.mem_cons.mp hc with rfl | hc
        · simp only at hx1 hx2
          omega
        · have := hrest.mp ⟨c, hc, hx1, hx2⟩
          omega
      · rintro ⟨hx1, hx2⟩
        by_cases hxc : x < S + i * cs + cs
        · refine ⟨(S + i * cs, min (S + i * cs + cs) (S + R)),
            List.mem_cons_self _ _, ?_⟩
          simp only
          omega
        · obtain ⟨c, hc, hcx⟩ := hrest.mpr (by omega)
          exact ⟨c, List.mem_cons_of_mem _ hc, hcx⟩

theorem offsetChunksAux_pairwise {S R cs : Nat} :
    ∀ fuel i, (offsetChunksAux S R cs i fuel).Pairwise rangesDisjoint := by
  intro fuel
  induction fuel with
  | zero => intro i; simp [offsetChunksAux]
  | succ fuel ih =>
    intro i
    by_cases h : S + R ≤ S + i * cs
    · simp [offsetChunksAux, h]
    · simp only [offsetChunksAux, h, if_false]
      refine List.Pairwise.cons ?_ (ih (i + 1))
      intro c hc
      obtain ⟨j, hj, hjR, rfl⟩ := offsetChunksAux_mem fuel (i + 1) c hc
      intro x hx
      obtain ⟨⟨hx1, hx2⟩, hx3, hx4⟩ := hx
      simp only at hx1 hx2 hx3 hx4
      have hmul : (i + 1) * cs ≤ j * cs := Nat.mul_le_mul_right cs hj
      have hstep : (i + 1) * cs = i * cs + cs := by ring
      omega

theorem offsetChunks_cover (S R P x : Nat) (hP : 1 ≤ P) (hR : 1 ≤ R) :
    (∃ c ∈ offsetChunks S R P, c.1 ≤ x ∧ x < c.2) ↔ S ≤ x ∧ x < S + R := by
  have he : 1 ≤ min P (ceilDiv R 200) :=
    le_min hP (ceilDiv_pos R 200 hR (by omega))
  have hcs : 1 ≤ ceilDiv R (min P (ceilDiv R 200)) := ceilDiv_pos R _ hR he
  have hfuel : R ≤ (0 + min P (ceilDiv R 200)) *
      ceilDiv R (min P (ceilDiv R 200)) := by
    rw [Nat.zero_add]
    exact le_mul_ceilDiv R _ he
  have := offsetChunksAux_cover (S := S) (R := R) hcs
    (min P (ceilDiv R 200)) 0 x hfuel
  simpa [offsetChunks] using this

theorem offsetChunks_pairwise (S R P : Nat) :
    (offsetChunks S R P).Pairwise rangesDisjoint :=
  offsetChunksAux_pairwise _ 0

/-! ## Properties of the time partitioner -/

theorem timeChunks_cover (after before P x : Nat) (hP : 1 ≤ P)
    (hab : after ≤ before) :
    (∃ c ∈ timeChunks after before P, c.1 ≤ x ∧ x < c.2) ↔
      after ≤ x ∧ x < before := by
  simp only [timeChunks, List.mem_map, List.mem_range]
  constructor
  · rintro ⟨c, ⟨i, hi, rfl⟩, hx1, hx2⟩
    simp only at hx1 hx2
    omega
  · rintro ⟨hx1, hx2⟩
    have hpos : 1 ≤ before - after := by omega
    have hcs : 1 ≤ ceilDiv (before - after) P := ceilDiv_pos _ _ hpos hP
    set cs := ceilDiv (before - after) P with hcsdef
    refine ⟨(after + (x - after) / cs * cs,
      min (after + ((x - after) / cs + 1) * cs) before),
      ⟨(x - after) / cs, ?_, rfl⟩, ?_, ?_⟩
    · have h1 : before - after ≤ P * cs := le_mul_ceilDiv _ _ hP
      exact (Nat.div_lt_iff_lt_mul hcs).mpr (by omega)
    · have : (x - after) / cs * cs ≤ x - after := Nat.div_mul_le_self _ _
      simp only
      omega
    · have : x - after < ((x - after) / cs + 1) * cs := lt_succ_div_mul _ _ hcs
      simp only
      omega

theorem timeChunks_pairwise (after before P : Nat) :
    (timeChunks after before P).Pairwise rangesDisjoint := by
  simp only [timeChunks]
  refine List.Pairwise.map _ ?_ (List.pairwise_lt_range P)
  intro i j hij x hx
  obtain ⟨⟨hx1, hx2⟩, hx3, hx4⟩ := hx
  simp only at hx1 hx2 hx3 hx4
  have hmul : (i + 1) * ceilDiv (before - after) P ≤
      j * ceilDiv (before - after) P :=
    Nat.mul_le_mul_right _ (by omega)
  have hstep : (i + 1) * ceilDiv (before - after) P =
      i * ceilDiv (before - after) P + ceilDiv (before - after) P := by ring
  omega

/-- A chunk covering a closed-interval point: needed because a record
whose timestamp equals the overall upper bound lies in no half-open
chunk but is fetched by the last non-empty chunk, whose clipped end
equals that bound. -/
theorem timeChunks_cover_closed (after before P t : Nat) (hP : 1 ≤ P)
    (hab : after ≤ before) (ht1 : after ≤ t) (ht2 : t ≤ before) :
    ∃ c ∈ timeChunks after before P, c.1 ≤ t ∧ t ≤ c.2 := by
  by_cases hz : before = after
  · subst hz
    refine ⟨(before + 0 * ceilDiv (before - before) P,
      min (before + (0 + 1) * ceilDiv (before - before) P) before), ?_, ?_, ?_⟩
    · simp only [timeChunks, List.mem_map, List.mem_range]
      exact ⟨0, by omega, rfl⟩
    · simp only
      omega
    · simp only
      omega
  · have hpos : 1 ≤ before - after := by omega
    have hcs : 1 ≤ ceilDiv (before - after) P := ceilDiv_pos _ _ hpos hP
    set cs := ceilDiv (before - after) P with hcsdef
    set u := min t (before - 1) with hu
    refine ⟨(after + (u - after) / cs * cs,
      min (after + ((u - after) / cs + 1) * cs) before), ?_, ?_, ?_⟩
    · simp only [timeChunks, List.mem_map, List.mem_range]
      refine ⟨(u - after) / cs, ?_, rfl⟩
      have h1 : before - after ≤ P * cs := le_mul_ceilDiv _ _ hP
      exact (Nat.div_lt_iff_lt_mul hcs).mpr (by omega)
    · have : (u - after) / cs * cs ≤ u - after := Nat.div_mul_le_self _ _
      simp only
      omega
    · have : u - after < ((u - after) / cs + 1) * cs := lt_succ_div_mul _ _ hcs
      simp only
      omega

/-! ## The offset worker against a static in-bounds dataset -/

/-- When the requested slice lies within the static dataset, every page
request is answered in full, so the worker pushes exactly the records at
indices [off, off + remaining). -/
theorem offsetWorkerRun_eq_take (ds : List Entry) :
    ∀ remaining off, off + remaining ≤ ds.length →
      offsetWorkerRun ds off remaining = (ds.drop off).take remaining := by
  intro remaining
  induction remaining using Nat.strong_induction_on with
  | _ remaining ih =>
    intro off hle
    rw [offsetWorkerRun]
    by_cases hrem : remaining = 0
    · simp [hrem]
    · simp only [hrem, dif_neg, dite_false]
      have hlen : (pageAt ds off (min remaining 200)).length = min remaining 200 := by
        simp only [pageAt, List.length_take, List.length_drop]
        omega
      have hne : ¬(pageAt ds off (min remaining 200)).length = 0 := by omega
      simp only [hne, dite_false]
      rw [hlen]
      rw [ih (remaining - min remaining 200) (by omega) (off + min remaining 200)
        (by omega)]
      have hsplit : remaining = min remaining 200 + (remaining - min remaining 200) := by
        omega
      conv_rhs => rw [hsplit, List.take_add]
      rw [pageAt, List.drop_drop]

theorem offsetChunksAux_flatten_take {ds : List Entry} {S R cs : Nat} :
    ∀ fuel i, R ≤ (i + fuel) * cs →
      ((offsetChunksAux S R cs i fuel).map fun c =>
        (ds.drop c.1).take (c.2 - c.1)).flatten =
        (ds.drop (S + i * cs)).take (S + R - (S + i * cs)) := by
  intro fuel
  induction fuel with
  | zero =>
    intro i hR
    simp only [Nat.add_zero] at hR
    simp only [offsetChunksAux, List.map_nil, List.flatten_nil]
    have : S + R - (S + i * cs) = 0 := by omega
    rw [this, List.take_zero]
  | succ fuel ih =>
    intro i hR
    have hR2 : R ≤ (i + 1 + fuel) * cs := by
      have : (i + 1 + fuel) * cs = (i + (fuel + 1)) * cs := by ring
      omega
    have hstep : (i + 1) * cs = i * cs + cs := by ring
    by_cases h : S + R ≤ S + i * cs
    · simp only [offsetChunksAux, h, if_true, List.map_nil, List.flatten_nil]
      have : S + R - (S + i * cs) = 0 := by omega
      rw [this, List.take_zero]
    · simp only [offsetChunksAux, h, if_false, List.map_cons, List.flatten_cons]
      rw [ih (i + 1) hR2]
      by_cases hend : S + i * cs + cs < S + R
      · have h1 : min (S + i * cs + cs) (S + R) - (S + i * cs) = cs := by omega
        have h2 : S + (i + 1) * cs = S + i * cs + cs := by omega
        rw [h1, h2]
        have h3 : S + R - (S + i * cs) = cs + (S + R - (S + i * cs + cs)) := by
          omega
        rw [h3, List.take_add, List.drop_drop]
      · have h1 : min (S + i * cs + cs) (S + R) - (S + i * cs) =
            S + R - (S + i * cs) := by omega
        have h2 : S + R - (S + (i + 1) * cs) = 0 := by omega
        rw [h1, h2, List.take_zero, List.append_nil]

/-- For any concurrency factor, the approval-request workers of the
default run over a static dataset push, in chunk order, exactly the
dataset. -/
theorem offsetWorkerJoin_eq (ds : List Entry) (P : Nat) (hP : 1 ≤ P) :
    offsetWorkerJoin ds P = ds := by
  by_cases hR : ds.length = 0
  · have hnil : ds = [] := List.length_eq_zero.mp hR
    subst hnil
    simp [offsetWorkerJoin, offsetChunks, ceilDiv, offsetChunksAux]
  · have hR1 : 1 ≤ ds.length := by omega
    have he : 1 ≤ min P (ceilDiv ds.length 200) :=
      le_min hP (ceilDiv_pos _ 200 hR1 (by omega))
    have hcs : 1 ≤ ceilDiv ds.length (min P (ceilDiv ds.length 200)) :=
      ceilDiv_pos _ _ hR1 he
    have hfuel : ds.length ≤ (0 + min P (ceilDiv ds.length 200)) *
        ceilDiv ds.length (min P (ceilDiv ds.length 200)) := by
      rw [Nat.zero_add]
      exact le_mul_ceilDiv _ _ he
    have hmap : ((offsetChunks 0 ds.length P).map fun c =>
        offsetWorkerRun ds c.1 (c.2 - c.1)) =
        ((offsetChunks 0 ds.length P).map fun c =>
          (ds.drop c.1).take (c.2 - c.1)) := by
      refine List.map_congr_left ?_
      intro c hc
      obtain ⟨j, hj, hjR, rfl⟩ :=
        offsetChunksAux_mem _ 0 c (by simpa [offsetChunks] using hc)
      refine offsetWorkerRun_eq_take ds _ _ ?_
      simp only
      omega
    rw [offsetWorkerJoin, hmap]
    have := @offsetChunksAux_flatten_take ds 0 ds.length
      (ceilDiv ds.length (min P (ceilDiv ds.length 200)))
      (min P (ceilDiv ds.length 200)) 0 hfuel
    simp only [Nat.zero_mul, Nat.add_zero, Nat.zero_add, List.drop_zero,
      Nat.zero_sub, Nat.sub_zero] at this
    rw [offsetChunks]
    rw [this, List.take_length]

/-! ## Merge correctness over arbitrary queue interleavings -/

/-- Entries fetched by the audit-log parallel workers are, as a set,
exactly the static dataset, provided it lies inside the requested
window: each worker fetch filters the dataset, and every record falls in
the closed range of at least one chunk. -/
theorem timeWorkerJoin_mem (ds : List Entry) (after before P : Nat)
    (hP : 1 ≤ P) (hab : after ≤ before)
    (hdom : ∀ r ∈ ds, after ≤ r.ts ∧ r.ts ≤ before) :
    ∀ r, r ∈ timeWorkerJoin ds after before P ↔ r ∈ ds := by
  intro r
  constructor
  · intro hr
    obtain ⟨l, hl, hrl⟩ := List.mem_flatten.mp hr
    obtain ⟨c, _, rfl⟩ := List.mem_map.mp hl
    exact List.mem_of_mem_filter hrl
  · intro hr
    obtain ⟨h1, h2⟩ := hdom r hr
    obtain ⟨c, hc, hcl, hcr⟩ :=
      timeChunks_cover_closed after before P r.ts hP hab h1 h2
    refine List.mem_flatten.mpr ⟨fetchTimeRange ds c.1 c.2, ?_, ?_⟩
    · exact List.mem_map.mpr ⟨c, hc, rfl⟩
    · refine List.mem_filter.mpr ⟨hr, ?_⟩
      simp [hcl, hcr]

/-- Core dedup correctness: if the queue carries, as a set of
identifiers, exactly the identifiers of a uniquely-identified dataset,
the merge loop yields one record per identifier of the dataset. -/
theorem mergeQueue_of_mem_ids (q ds : List Entry)
    (hnodup : (ds.map Entry.id).Nodup)
    (hmem : ∀ x, x ∈ q.map Entry.id ↔ x ∈ ds.map Entry.id) :
    (mergeQueue q).yielded.length = ds.length ∧
    ((mergeQueue q).yielded.map Entry.id).Perm (ds.map Entry.id) := by
  have h1 : ((mergeQueue q).yielded.map Entry.id).Nodup :=
    dedupLoop_yielded_nodup q []
  have h2 : ∀ x, x ∈ (mergeQueue q).yielded.map Entry.id ↔
      x ∈ ds.map Entry.id := by
    intro x
    have := dedupLoop_mem_yielded_id q [] x
    simp only [List.not_mem_nil, not_false_iff, and_true] at this
    exact this.trans (hmem x)
  have hperm : ((mergeQueue q).yielded.map Entry.id).Perm (ds.map Entry.id) :=
    List.Subperm.antisymm
      (List.subperm_of_subset h1 fun x hx => (h2 x).mp hx)
      (List.subperm_of_subset hnodup fun x hx => (h2 x).mpr hx)
  refine ⟨?_, hperm⟩
  have := hperm.length_eq
  simpa [List.length_map] using this

/-! ## Claim theorems -/

/-- C1: for a static dataset of N uniquely-identified records, the
parallel engines run with any concurrency factor P ≥ 1 yield exactly N
records, each identifier exactly once, whatever order the shared queue
received the worker pushes in; in particular the identifier sets yielded
with P = 1 and with P = 10 coincide. The first conjunct is the
offset-chunked approval-request engine (default run over the dataset),
the second the time-chunked audit-log engine (dataset inside the
requested window, endpoint modelled with inclusive boundaries), the
third the P-invariance instance. -/
theorem claim_c1_dedup_p_invariance :
    (∀ (ds : List Entry) (P : Nat) (queue : List Entry), 1 ≤ P →
      (ds.map Entry.id).Nodup → queue.Perm (offsetWorkerJoin ds P) →
      (mergeQueue queue).yielded.length = ds.length ∧
      ((mergeQueue queue).yielded.map Entry.id).Perm (ds.map Entry.id)) ∧
    (∀ (ds : List Entry) (after before P : Nat) (queue : List Entry),
      1 ≤ P → after ≤ before → (ds.map Entry.id).Nodup →
      (∀ r ∈ ds, after ≤ r.ts ∧ r.ts ≤ before) →
      queue.Perm (timeWorkerJoin ds after before P) →
      (mergeQueue queue).yielded.length = ds.length ∧
      ((mergeQueue queue).yielded.map Entry.id).Perm (ds.map Entry.id)) ∧
    (∀ (ds : List Entry) (q1 q10 : List Entry),
      (ds.map Entry.id).Nodup →
      q1.Perm (offsetWorkerJoin ds 1) → q10.Perm (offsetWorkerJoin ds 10) →
      ((mergeQueue q1).yielded.map Entry.id).Perm
        ((mergeQueue q10).yielded.map Entry.id)) := by
  have hoffset : ∀ (ds : List Entry) (P : Nat) (queue : List Entry), 1 ≤ P →
      (ds.map Entry.id).Nodup → queue.Perm (offsetWorkerJoin ds P) →
      (mergeQueue queue).yielded.length = ds.length ∧
      ((mergeQueue queue).yielded.map Entry.id).Perm (ds.map Entry.id) := by
    intro ds P queue hP hnodup hq
    refine mergeQueue_of_mem_ids queue ds hnodup ?_
    intro x
    have hperm : (queue.map Entry.id).Perm (ds.map Entry.id) := by
      have := hq.map Entry.id
      rwa [offsetWorkerJoin_eq ds P hP] at this
    exact hperm.mem_iff
  refine ⟨hoffset, ?_, ?_⟩
  · intro ds after before P queue hP hab hnodup hdom hq
    refine mergeQueue_of_mem_ids queue ds hnodup ?_
    intro x
    constructor
    · intro hx
      obtain ⟨r, hr, rfl⟩ := List.mem_map.mp ((hq.map Entry.id).mem_iff.mp hx)
      obtain ⟨r2, hr2, hrid⟩ := List.mem_map.mp (List.mem_map_of_mem Entry.id
        ((timeWorkerJoin_mem ds after before P hP hab hdom r).mp hr))
      exact List.mem_map.mpr ⟨r2, hr2, hrid⟩
    · intro hx
      obtain ⟨r, hr, rfl⟩ := List.mem_map.mp hx
      refine (hq.map Entry.id).mem_iff.mpr ?_
      exact List.mem_map_of_mem Entry.id
        ((timeWorkerJoin_mem ds after before P hP hab hdom r).mpr hr)
  · intro ds q1 q10 hnodup h1 h10
    have ha := hoffset ds 1 q1 (by omega) hnodup h1
    have hb := hoffset ds 10 q10 (by omega) hnodup h10
    exact ha.2.trans hb.2.symm

/-- C1 witness: a three-record dataset processed with P = 2, with the
queue taken in push order, yields all three records with each identifier
once, and the identifier sets for P = 1 and P = 10 agree. -/
theorem claim_c1_dedup_p_invariance_witness :
    ((mergeQueue (offsetWorkerJoin
        [⟨some "a", 0, 0⟩, ⟨some "b", 1, 0⟩, ⟨some "c", 2, 0⟩]
        2)).yielded.length = 3 ∧
      ((mergeQueue (offsetWorkerJoin
        [⟨some "a", 0, 0⟩, ⟨some "b", 1, 0⟩, ⟨some "c", 2, 0⟩]
        2)).yielded.map Entry.id).Perm
        ([⟨some "a", 0, 0⟩, ⟨some "b", 1, 0⟩,
          (⟨some "c", 2, 0⟩ : Entry)].map Entry.id)) ∧
    ((mergeQueue (timeWorkerJoin
        [⟨some "a", 0, 0⟩, ⟨some "b", 1, 0⟩, ⟨some "c", 2, 0⟩] 0 2
        2)).yielded.length = 3) ∧
    ((mergeQueue (offsetWorkerJoin
        [⟨some "a", 0, 0⟩, ⟨some "b", 1, 0⟩, ⟨some "c", 2, 0⟩]
        1)).yielded.map Entry.id).Perm
      ((mergeQueue (offsetWorkerJoin
        [⟨some "a", 0, 0⟩, ⟨some "b", 1, 0⟩, ⟨some "c", 2, 0⟩]
        10)).yielded.map Entry.id) := by
  refine ⟨?_, ?_, ?_⟩
  · exact claim_c1_dedup_p_invariance.1
      [⟨some "a", 0, 0⟩, ⟨some "b", 1, 0⟩, ⟨some "c", 2, 0⟩] 2 _
      (by omega) (by decide) (List.Perm.refl _)
  · exact (claim_c1_dedup_p_invariance.2.1
      [⟨some "a", 0, 0⟩, ⟨some "b", 1, 0⟩, ⟨some "c", 2, 0⟩] 0 2 2 _
      (by omega) (by omega) (by decide) (by decide) (List.Perm.refl _)).1
  · exact claim_c1_dedup_p_invariance.2.2
      [⟨some "a", 0, 0⟩, ⟨some "b", 1, 0⟩, ⟨some "c", 2, 0⟩] _ _
      (by decide) (List.Perm.refl _) (List.Perm.refl _)

/-- C2: for every concurrency factor P ≥ 1 the ranges produced by either
partitioner are pairwise disjoint and their union is exactly the input
domain. Each range is read half-open at its upper end; under the
closed-interval reading adjacent ranges share exactly their boundary
point, the tolerated 1-unit edge slop. The offset partitioner is only
reached with recordsToFetch ≥ 1 (smaller values return before
partitioning), hence the 1 ≤ R hypothesis on its coverage. -/
theorem claim_c2_partition_coverage :
    (∀ S R P x : Nat, 1 ≤ P → 1 ≤ R →
      ((∃ c ∈ offsetChunks S R P, c.1 ≤ x ∧ x < c.2) ↔ S ≤ x ∧ x < S + R)) ∧
    (∀ S R P : Nat, (offsetChunks S R P).Pairwise rangesDisjoint) ∧
    (∀ after before P x : Nat, 1 ≤ P → after ≤ before →
      ((∃ c ∈ timeChunks after before P, c.1 ≤ x ∧ x < c.2) ↔
        after ≤ x ∧ x < before)) ∧
    (∀ after before P : Nat, (timeChunks after before P).Pairwise rangesDisjoint) :=
  ⟨fun S R P x hP hR => offsetChunks_cover S R P x hP hR,
   offsetChunks_pairwise,
   fun after before P x hP hab => timeChunks_cover after before P x hP hab,
   timeChunks_pairwise⟩

/-- C2 witness: concrete coverage and disjointness instances, P = 3 over
500 offsets and a 10-unit time window. -/
theorem claim_c2_partition_coverage_witness :
    ((∃ c ∈ offsetChunks 0 500 3, c.1 ≤ 250 ∧ 250 < c.2) ↔
      0 ≤ 250 ∧ 250 < 0 + 500) ∧
    (offsetChunks 0 500 3).Pairwise rangesDisjoint ∧
    ((∃ c ∈ timeChunks 100 110 3, c.1 ≤ 109 ∧ 109 < c.2) ↔
      100 ≤ 109 ∧ 109 < 110) ∧
    (timeChunks 100 110 3).Pairwise rangesDisjoint :=
  ⟨claim_c2_partition_coverage.1 0 500 3 250 (by omega) (by omega),
   claim_c2_partition_coverage.2.1 0 500 3,
   claim_c2_partition_coverage.2.2.1 100 110 3 109 (by omega) (by omega),
   claim_c2_partition_coverage.2.2.2 100 110 3⟩

/-- C5: on every successful parallel run the Complete event reports
uniqueEntries = seenIds.size equal to the number of records yielded to
the caller, and duplicatesRemoved equal to the total number of records
pushed by all workers minus that yield count, for any interleaving of
the worker push lists into the shared queue. -/
theorem claim_c5_progress_accounting :
    ∀ (outs : List (List Entry)) (queue : List Entry),
      queue.Perm outs.flatten →
      (mergeQueue queue).seen.Nodup ∧
      (mergeQueue queue).seen.length = (mergeQueue queue).yielded.length ∧
      (mergeQueue queue).dups =
        (outs.map List.length).sum - (mergeQueue queue).yielded.length := by
  intro outs queue hq
  have h1 : (mergeQueue queue).seen.Nodup :=
    dedupLoop_seen_nodup queue [] (by simp)
  have h2 := dedupLoop_seen_length queue []
  have h3 := dedupLoop_length queue []
  have hlen : queue.length = (outs.map List.length).sum := by
    rw [hq.length_eq, List.length_flatten]
  refine ⟨h1, ?_, ?_⟩
  · simpa [mergeQueue] using h2
  · simp only [mergeQueue] at h3 ⊢
    omega

/-- C5 witness: two workers pushing the same single record; the Complete
event reports one unique entry and one duplicate removed. -/
theorem claim_c5_progress_accounting_witness :
    (mergeQueue [⟨some "a", 0, 0⟩, ⟨some "a", 0, 0⟩]).seen.Nodup ∧
    (mergeQueue [⟨some "a", 0, 0⟩, ⟨some "a", 0, 0⟩]).seen.length =
      (mergeQueue [⟨some "a", 0, 0⟩, ⟨some "a", 0, 0⟩]).yielded.length ∧
    (mergeQueue [⟨some "a", 0, 0⟩, ⟨some "a", 0, 0⟩]).dups =
      ([[⟨some "a", 0, 0⟩], [(⟨some "a", 0, 0⟩ : Entry)]].map List.length).sum -
        (mergeQueue [⟨some "a", 0, 0⟩, ⟨some "a", 0, 0⟩]).yielded.length :=
  claim_c5_progress_accounting
    [[⟨some "a", 0, 0⟩], [⟨some "a", 0, 0⟩]]
    [⟨some "a", 0, 0⟩, ⟨some "a", 0, 0⟩] (List.Perm.refl _)

/-- C9: the merge loop dedups on the _id field alone: among queued
records lacking _id (identifier read as undefined), exactly the first is
yielded; every later one is dropped and counted in duplicatesRemoved,
even when the records differ in every other field. -/
theorem claim_c9_dedup_missing_id :
    ∀ (queue : List Entry) (r0 : Entry) (rs : List Entry),
      queue.filter (fun r => decide (r.id = none)) = r0 :: rs →
      (mergeQueue queue).yielded.filter (fun r => decide (r.id = none)) =
        [r0] ∧
      rs.length ≤ (mergeQueue queue).dups := by
  intro queue r0 rs hq
  have h1 := dedupLoop_filter_key queue none []
  simp only [List.not_mem_nil, if_false] at h1
  rw [hq] at h1
  simp only [List.take_succ_cons, List.take_zero] at h1
  refine ⟨h1, ?_⟩
  have hsub : (mergeQueue queue).yielded.Sublist queue := dedupLoop_sublist queue []
  have hlen := dedupLoop_length queue []
  have hq1 : List.countP (fun r => decide (r.id = none)) queue = rs.length + 1 := by
    rw [List.countP_eq_length_filter, hq]
    simp
  have hy1 : List.countP (fun r => decide (r.id = none))
      (mergeQueue queue).yielded = 1 := by
    rw [List.countP_eq_length_filter]
    simp only [mergeQueue]
    rw [h1]
    simp
  have hqsplit := List.length_eq_countP_add_countP
    (fun r => decide (r.id = none)) queue
  have hysplit := List.length_eq_countP_add_countP
    (fun r => decide (r.id = none)) (mergeQueue queue).yielded
  have hmono := hsub.countP_le
    (fun r => decide ¬(decide (r.id = none)) = true)
  simp only [mergeQueue] at hlen hy1 hysplit hmono ⊢
  omega

/-- C9 witness: two records both lacking _id and differing in payload;
only the first is yielded and the second counts as one duplicate. -/
theorem claim_c9_dedup_missing_id_witness :
    (mergeQueue [⟨none, 0, 1⟩, ⟨none, 0, 2⟩]).yielded.filter
        (fun r => decide (r.id = none)) = [⟨none, 0, 1⟩] ∧
    [(⟨none, 0, 2⟩ : Entry)].length ≤
      (mergeQueue [⟨none, 0, 1⟩, ⟨none, 0, 2⟩]).dups :=
  claim_c9_dedup_missing_id [⟨none, 0, 1⟩, ⟨none, 0, 2⟩]
    ⟨none, 0, 1⟩ [⟨none, 0, 2⟩] (by decide)

/-- C6 counterexample: a worker records a fatal http 404 error as the
only active worker while the shared queue is empty; the merge loop
condition fails on re-check, so the run emits a normal Complete event
and never raises the recorded error, contradicting the claim that any
recorded worker error is raised to the caller. -/
theorem claim_c6_counterexample :
    coordRun ⟨[], 1, none, [], [], 0⟩
        [[WEvent.finishErr (FailKind.httpFail 404)]] =
      some (Outcome.completed 0 0) := by
  rfl

/-- C6 (amended): whenever the merge loop reaches another iteration with
a recorded worker error - that is, the loop condition still holds:
active workers remain or the queue is non-empty - it raises exactly the
recorded error object, not a wrapped or reconstructed one; if instead
the erroring worker was the last active one and the queue is empty, the
loop exits and the error is silently dropped (see the counterexample). -/
theorem claim_c6_exact_error_raised :
    ∀ (s : CoState) (scripts : List (List WEvent)) (e : FailKind),
      s.err = some e → (0 < s.active ∨ s.queue ≠ []) →
      coordRun s scripts = some (Outcome.errored e) := by
  intro s scripts e herr hcond
  have hiter : ¬(s.active = 0 ∧ s.queue = []) := by
    rcases hcond with h | h
    · rintro ⟨h1, _⟩
      omega
    · rintro ⟨_, h2⟩
      exact h h2
  cases scripts with
  | nil => simp [coordRun, coordCheck, hiter, herr]
  | cons evs rest => simp [coordRun, coordCheck, hiter, herr]

/-- C6 witness: with two workers still active and a recorded http 500
error, the next merge iteration raises exactly that error. -/
theorem claim_c6_exact_error_raised_witness :
    coordRun ⟨[], 2, some (FailKind.httpFail 500), [], [], 0⟩ [] =
      some (Outcome.errored (FailKind.httpFail 500)) :=
  claim_c6_exact_error_raised ⟨[], 2, some (FailKind.httpFail 500), [], [], 0⟩
    [] (FailKind.httpFail 500) rfl (Or.inl (by decide))

/-- C7 counterexample: a zero-width time domain (before = after = 5)
with parallelChunks = 3 makes the time partitioner yield three
zero-width ranges, not zero ranges, and every worker still issues at
least one page request for its range. -/
theorem claim_c7_counterexample :
    (timeChunks 5 5 3).length = 3 ∧ timeChunks 5 5 3 ≠ [] := by
  decide

/-- A zero-width time domain partitions into P copies of the degenerate
range (a, a). -/
theorem timeChunks_zero_width (a P : Nat) :
    timeChunks a a P = List.replicate P (a, a) := by
  have hcs : ceilDiv (a - a) P = 0 := by
    cases P with
    | zero => simp [ceilDiv]
    | succ p =>
      simp only [ceilDiv, Nat.sub_self, Nat.zero_add]
      exact Nat.div_eq_of_lt (by omega)
  refine List.eq_replicate.mpr ⟨by simp [timeChunks], ?_⟩
  intro c hc
  simp only [timeChunks, hcs, List.mem_map, List.mem_range] at hc
  obtain ⟨i, _, rfl⟩ := hc
  simp

/-- C7 (amended): a count probe reporting no remaining records makes the
offset engine build zero ranges, yield zero records, emit an immediate
Complete event with unique count 0 and issue no page requests beyond the
probe; a zero-width time domain instead makes the time partitioner build
P zero-width ranges (each equal to (a, a)), and the engine yields zero
records with a Complete unique count of 0 provided no record carries the
boundary timestamp, while its P workers each still fetch their range. -/
theorem claim_c7_zero_width :
    (∀ (ds : List Entry) (totalCount S P : Nat) (maxOpt : Option Nat),
      totalCount ≤ S →
      offsetEngineOutcome ds totalCount S maxOpt P = ⟨[], [], 0, 0, []⟩) ∧
    (∀ a P : Nat, timeChunks a a P = List.replicate P (a, a)) ∧
    (∀ (ds : List Entry) (a P : Nat), (∀ r ∈ ds, r.ts ≠ a) →
      timeWorkerJoin ds a a P = [] ∧
      (mergeQueue (timeWorkerJoin ds a a P)).yielded = [] ∧
      (mergeQueue (timeWorkerJoin ds a a P)).seen.length = 0) := by
  refine ⟨?_, timeChunks_zero_width, ?_⟩
  · intro ds totalCount S P maxOpt h
    cases maxOpt with
    | none =>
      simp only [offsetEngineOutcome]
      rw [if_pos (by omega : (totalCount : Int) - (S : Int) ≤ 0)]
    | some m =>
      simp only [offsetEngineOutcome]
      rw [if_pos ?_]
      have h1 : (totalCount : Int) - (S : Int) ≤ 0 := by omega
      have h2 := min_le_right (m : Int) ((totalCount : Int) - (S : Int))
      omega
  · intro ds a P hne
    have hfetch : fetchTimeRange ds a a = [] := by
      simp only [fetchTimeRange]
      rw [List.filter_eq_nil]
      intro r hr
      simp only [Bool.and_eq_true, decide_eq_true_eq, not_and]
      intro h1 h2
      exact hne r hr (by omega)
    have hjoin : timeWorkerJoin ds a a P = [] := by
      simp only [timeWorkerJoin]
      rw [List.flatten_eq_nil_iff]
      intro l hl
      obtain ⟨c, hc, rfl⟩ := List.mem_map.mp hl
      have hca := (List.eq_replicate.mp (timeChunks_zero_width a P)).2 c hc
      rw [hca]
      exact hfetch
    rw [hjoin]
    exact ⟨rfl, rfl, rfl⟩

/-- C7 witness: concrete instances of the amended behavior: an exhausted
count probe (totalCount 5, startingOffset 10), a zero-width time domain
at instant 5 with 3 chunks, and a one-record dataset away from the
boundary instant. -/
theorem claim_c7_zero_width_witness :
    offsetEngineOutcome [] 5 10 none 4 = ⟨[], [], 0, 0, []⟩ ∧
    timeChunks 5 5 3 = List.replicate 3 (5, 5) ∧
    timeWorkerJoin [⟨some "a", 7, 0⟩] 5 5 3 = [] ∧
    (mergeQueue (timeWorkerJoin [⟨some "a", 7, 0⟩] 5 5 3)).seen.length = 0 := by
  refine ⟨claim_c7_zero_width.1 [] 5 10 4 none (by omega),
    claim_c7_zero_width.2.1 5 3, ?_, ?_⟩
  · exact (claim_c7_zero_width.2.2 [⟨some "a", 7, 0⟩] 5 3 (by decide)).1
  · exact (claim_c7_zero_width.2.2 [⟨some "a", 7, 0⟩] 5 3 (by decide)).2.2

/-- C3 counterexample: inside an approval-request parallel chunk worker,
a single HTTP 500 on the first call - transient by the claim - aborts
the chunk with a recorded fatal error and nothing pushed, although the
next response would have supplied the chunk record: the worker has no
retry branch, so the items are lost and the run is not a clean success. -/
theorem claim_c3_counterexample :
    approvalWorkerRunScript
        [.status 500 none, .ok [⟨some "a", 0, 0⟩] false] 0 1 =
      .errored (.httpFail 500) [] := by
  rfl

/-- C3 (amended): the sequential page fetchers of both engines (and so
the audit-log parallel workers, which drive the sequential fetcher)
treat HTTP 5xx and network-level failures as transient - sleep a fixed
1000ms and retry the same request indefinitely - so an endpoint failing
with 500 on the first two calls to a page and then succeeding loses
nothing; the approval-request parallel chunk workers, however, throw on
any non-2xx response and record network failures as fatal, aborting the
chunk without retrying. -/
theorem claim_c3_transient_retry :
    (∀ (now : Int) (code : Nat) (reset : Option Nat), 500 ≤ code →
      classify now (.status code reset) = .retryAfter 1000) ∧
    (∀ now : Int, classify now .netfail = .retryAfter 1000) ∧
    (∀ (now : Int) (items : List Entry),
      runSeq [.status 500 none, .status 500 none, .ok items false] now =
        .success items [1000, 1000]) ∧
    (∀ (code : Nat) (reset : Option Nat) (rest : List Resp) (off n : Nat),
      approvalWorkerRunScript (.status code reset :: rest) off (n + 1) =
        .errored (.httpFail code) []) ∧
    (∀ (rest : List Resp) (off n : Nat),
      approvalWorkerRunScript (.netfail :: rest) off (n + 1) =
        .errored .netFail []) := by
  have hclass : ∀ (now : Int) (code : Nat) (reset : Option Nat), 500 ≤ code →
      classify now (.status code reset) = .retryAfter 1000 := by
    intro now code reset h
    simp only [classify]
    rw [if_neg (by rintro ⟨h429, _⟩; omega)]
    rw [if_pos (Or.inl h)]
  refine ⟨hclass, fun _ => rfl, ?_, fun _ _ _ _ _ => rfl, fun _ _ _ => rfl⟩
  intro now items
  have h1 := hclass now 500 none (by omega)
  simp only [runSeq, h1]
  rfl

/-- C3 witness: concrete transient classifications and the
two-500s-then-success run losing no items, at now = 0 with one record. -/
theorem claim_c3_transient_retry_witness :
    classify 0 (.status 503 none) = .retryAfter 1000 ∧
    runSeq [.status 500 none, .status 500 none,
        .ok [⟨some "a", 0, 0⟩] false] 0 =
      .success [⟨some "a", 0, 0⟩] [1000, 1000] ∧
    approvalWorkerRunScript [.status 502 none] 0 3 =
      .errored (.httpFail 502) [] :=
  ⟨claim_c3_transient_retry.1 0 503 none (by omega),
   claim_c3_transient_retry.2.2.1 0 [⟨some "a", 0, 0⟩],
   claim_c3_transient_retry.2.2.2.1 502 none [] 0 2⟩

/-- C4: a 429 response bearing the X-RateLimit-Reset header (epoch
seconds) makes the fetcher wait exactly min(resetEpochMs - now, 1000ms)
before retrying the same request (a non-positive computed wait sleeps
zero time); with the reset 2 seconds in the future the wait is 1000ms;
and however many consecutive 429s precede a success, the call succeeds
with one recorded wait per 429. -/
theorem claim_c4_rate_limit_backoff :
    (∀ (now : Int) (r : Nat),
      classify now (.status 429 (some r)) =
        .retryAfter (min ((r : Int) * 1000 - now) 1000)) ∧
    (∀ items : List Entry,
      runSeq [.status 429 (some 2), .ok items false] 0 =
        .success items [1000]) ∧
    (∀ (k r : Nat) (now : Int) (items : List Entry),
      ∃ ws : List Int,
        runSeq (List.replicate k (.status 429 (some r)) ++ [.ok items false])
          now = .success items ws ∧ ws.length = k) := by
  have hclass : ∀ (now : Int) (r : Nat),
      classify now (.status 429 (some r)) =
        .retryAfter (min ((r : Int) * 1000 - now) 1000) := by
    intro now r
    simp [classify]
  refine ⟨hclass, ?_, ?_⟩
  · intro items
    have h1 := hclass 0 2
    simp only [runSeq, h1]
    norm_num
    rfl
  · intro k
    induction k with
    | zero =>
      intro r now items
      exact ⟨[], rfl, rfl⟩
    | succ k ih =>
      intro r now items
      obtain ⟨ws, hws, hlen⟩ :=
        ih r (now + max (min ((r : Int) * 1000 - now) 1000) 0) items
      refine ⟨min ((r : Int) * 1000 - now) 1000 :: ws, ?_, by simp [hlen]⟩
      simp only [List.replicate_succ, List.cons_append, runSeq, hclass]
      rw [List.append_eq, hws]

/-- C4 witness: instantiating the exact-wait computation at now = 0 with
reset 2 seconds ahead, and eventual success after three 429s. -/
theorem claim_c4_rate_limit_backoff_witness :
    classify 0 (.status 429 (some 2)) = .retryAfter 1000 ∧
    runSeq [.status 429 (some 2), .ok [⟨some "a", 0, 0⟩] false] 0 =
      .success [⟨some "a", 0, 0⟩] [1000] ∧
    ∃ ws : List Int,
      runSeq (List.replicate 3 (.status 429 (some 2)) ++
        [.ok [⟨some "a", 0, 0⟩] false]) 0 =
        .success [⟨some "a", 0, 0⟩] ws ∧ ws.length = 3 := by
  refine ⟨?_, claim_c4_rate_limit_backoff.2.1 [⟨some "a", 0, 0⟩],
    claim_c4_rate_limit_backoff.2.2 3 2 0 [⟨some "a", 0, 0⟩]⟩
  have := claim_c4_rate_limit_backoff.1 0 2
  norm_num at this
  exact this

/-- C8: a 429 response without the X-RateLimit-Reset header does not
raise: the first branch is skipped and the generic transient branch
sleeps a fixed 1000ms and retries the same request, which then proceeds
normally once the endpoint recovers. -/
theorem claim_c8_429_without_header :
    (∀ now : Int, classify now (.status 429 none) = .retryAfter 1000) ∧
    (∀ (now : Int) (items : List Entry),
      runSeq [.status 429 none, .ok items false] now =
        .success items [1000]) := by
  have hclass : ∀ now : Int, classify now (.status 429 none) =
      .retryAfter 1000 := by
    intro now
    simp [classify]
  refine ⟨hclass, ?_⟩
  intro now items
  simp only [runSeq, hclass]
  rfl

/-- C10: the sequential approval-request fetcher advances to a further
page only when the current page is non-empty and the response carries a
present, non-zero totalCount (JS truthiness of the field); if the
response omits totalCount, reports it as 0, or returns no items, the
generator ends after yielding the items of that page (truncated at max),
whatever the endpoint still holds. -/
theorem claim_c10_offset_pagination :
    (∀ (server : Nat → Nat → Page) (maxOpt : Option Nat) (fuel off lim yc : Nat),
      ((server off lim).items = [] ∨ (server off lim).totalCount = none ∨
        (server off lim).totalCount = some 0) →
      approvalSeqRunAux server maxOpt (fuel + 1) off lim yc =
        ⟨(server off lim).items.take
          (match maxOpt with
           | some m => min (server off lim).items.length (m - yc)
           | none => (server off lim).items.length),
         [(off, lim)]⟩) ∧
    (∀ (server : Nat → Nat → Page) (maxOpt : Option Nat) (fuel off lim yc : Nat),
      2 ≤ (approvalSeqRunAux server maxOpt fuel off lim yc).requests.length →
      (server off lim).items ≠ [] ∧
        ∃ tc, (server off lim).totalCount = some tc ∧ 0 < tc) := by
  constructor
  · intro server maxOpt fuel off lim yc h
    rcases h with h | h | h
    · simp [approvalSeqRunAux, h]
    · simp [approvalSeqRunAux, h]
    · simp [approvalSeqRunAux, h]
  · intro server maxOpt fuel off lim yc h
    cases fuel with
    | zero =>
      simp [approvalSeqRunAux] at h
    | succ fuel =>
      by_cases hitems : (server off lim).items = []
      · simp [approvalSeqRunAux, hitems] at h
      · refine ⟨hitems, ?_⟩
        rcases htc : (server off lim).totalCount with _ | tc
        · simp [approvalSeqRunAux, htc] at h
        · cases tc with
          | zero => simp [approvalSeqRunAux, htc] at h
          | succ t => exact ⟨t + 1, rfl, by omega⟩

/-- C10 witness: a response without totalCount ends the generator after
one request, and a run that made two requests had a non-empty first page
with a positive totalCount. -/
theorem claim_c10_offset_pagination_witness :
    approvalSeqRunAux (fun _ _ => ⟨[⟨some "a", 0, 0⟩], none⟩) none 3 0 20 0 =
      ⟨[⟨some "a", 0, 0⟩], [(0, 20)]⟩ ∧
    ([(⟨some "a", 0, 0⟩ : Entry)] ≠ ([] : List Entry) ∧
      ∃ tc, (some 5 : Option Nat) = some tc ∧ 0 < tc) := by
  constructor
  · exact claim_c10_offset_pagination.1
      (fun _ _ => ⟨[⟨some "a", 0, 0⟩], none⟩) none 2 0 20 0 (Or.inr (Or.inl rfl))
  · exact claim_c10_offset_pagination.2
      (fun _ _ => ⟨[⟨some "a", 0, 0⟩], some 5⟩) none 2 0 20 0 (by decide)

end LdUtil
